import Mathlib

/-!
Shallow embedding of `src/mongoc/mongoc-uri.c` (the MongoDB connection-string
parser).  C strings are modelled as `List Char`; a `NULL`-or-string result
becomes `Option`; `bson_bool_t` stays `Bool`.  Out-parameters (`const char
**end`) are returned explicitly.  Where the C code can return without
assigning `*end`, the model returns `Option (List Char)` for the cursor, with
`none` standing for "left unassigned" (the caller keeps its previous value).
The `goto again` loops are modelled with an explicit fuel parameter; the
top-level wrappers supply `length + 1` fuel, which is proved sufficient.
The `bson_t` documents `options` and `read_prefs` are modelled, following the
spec's assumed container contract, as append-only association lists.
-/

/-- ASCII `tolower`, as applied byte-wise by `strcasecmp` in the C locale. -/
def ascii_tolower (c : Char) : Char :=
  if 'A' ≤ c ∧ c ≤ 'Z' then Char.ofNat (c.toNat + 32) else c

/-- `strcasecmp(a, b) == 0`: case-insensitive ASCII comparison. -/
def strcaseeq (a b : List Char) : Bool :=
  a.map ascii_tolower == b.map ascii_tolower

/-- The maximal run of leading decimal digits of `s`. -/
def leading_digits (s : List Char) : List Char :=
  s.takeWhile Char.isDigit

/-- Value of a decimal digit string. -/
def digits_to_nat (ds : List Char) : Nat :=
  ds.foldl (fun a c => a * 10 + (c.toNat - 48)) 0

/-- `sscanf(s, "%hu", &port)` under the caller's guarantee that `s` starts
with a decimal digit: the leading digit run is read and stored into an
`unsigned short` (wrapping modulo 2^16, as glibc does). -/
def sscanf_hu (s : List Char) : Nat :=
  digits_to_nat (leading_digits s) % 65536

/-- C `isspace` in the C locale. -/
def isspace_c (c : Char) : Bool :=
  c = ' ' ∨ c = '\t' ∨ c = '\n' ∨ c = '\x0b' ∨ c = '\x0c' ∨ c = '\r'

/-- `strtol(s, NULL, 10)` before clamping: skip leading whitespace, optional
sign, then the leading decimal digit run; no digits yields 0. -/
def strtol10_raw (s : List Char) : Int :=
  let s1 := s.dropWhile isspace_c
  match s1 with
  | '-' :: rest => -(digits_to_nat (leading_digits rest) : Int)
  | '+' :: rest => (digits_to_nat (leading_digits rest) : Int)
  | _ => (digits_to_nat (leading_digits s1) : Int)

/-- `strtol` clamps its result to the range of a 64-bit `long`. -/
def long_clamp (n : Int) : Int :=
  max (-(2 ^ 63)) (min (2 ^ 63 - 1) n)

/-- Conversion of a `long` to `bson_int32_t` (two's-complement wrap). -/
def bson_int32_of (n : Int) : Int :=
  (n + 2 ^ 31).emod (2 ^ 32) - 2 ^ 31

/-- `strtol(value, NULL, 10)` stored into a `bson_int32_t`. -/
def strtol_int32 (s : List Char) : Int :=
  bson_int32_of (long_clamp (strtol10_raw s))

/-- `strstr(hay, pat)`: index of the first occurrence of `pat` in `hay`
(`none` when absent, mirroring a `NULL` pointer result). -/
def strstr (hay pat : List Char) : Option Nat :=
  if pat.isPrefixOf hay then some 0
  else
    match hay with
    | [] => none
    | _ :: t => (strstr t pat).map (· + 1)

/-- `scan_to_unichar` (mongoc-uri.c:76): scan for the first unescaped `stop`
character.  A backslash unconditionally skips the following character (which
stays embedded in the captured text); an unterminated escape or reaching the
end of the string yields `NULL` (`none`).  On success, returns the captured
prefix and the remainder starting at the `stop` character (`*end`). -/
def scan_to_unichar (stop : Char) : List Char → Option (List Char × List Char)
  | [] => none
  | c :: rest =>
    if c = stop then some ([], c :: rest)
    else if c = '\\' then
      match rest with
      | [] => none
      | d :: rest2 => (scan_to_unichar stop rest2).map (fun p => (c :: d :: p.1, p.2))
    else (scan_to_unichar stop rest).map (fun p => (c :: p.1, p.2))

/-- `MONGOC_DEFAULT_PORT` (mongoc-uri.c:33). -/
def MONGOC_DEFAULT_PORT : Nat := 27017

/-- The two address families assigned by `mongoc_uri_append_host`. -/
inductive family_t where
  | AF_UNIX : family_t
  | AF_INET : family_t
deriving DecidableEq, Repr

/-- One entry of the host list (`mongoc_host_list_t`). -/
structure mongoc_host_list_t where
  host : List Char
  port : Nat
  family : family_t
  host_and_port : List Char
deriving DecidableEq, Repr

/-- A typed value stored in the `options` bson document. -/
inductive bson_value where
  | int32 : Int → bson_value
  | bool : Bool → bson_value
  | utf8 : List Char → bson_value
deriving DecidableEq, Repr

/-- `struct _mongoc_uri_t` (mongoc-uri.c:37).  `options` is the append-only
`bson_t` of coerced options; `read_prefs` is the `bson_t` of tag groups (its
numeric keys "0", "1", ... are the list indices). -/
structure mongoc_uri_t where
  str : List Char
  hosts : List mongoc_host_list_t
  username : Option (List Char)
  password : Option (List Char)
  database : Option (List Char)
  options : List (List Char × bson_value)
  read_prefs : List (List (List Char × List Char))
deriving DecidableEq, Repr

/-- The zero-initialised uri produced by `bson_malloc0` + `bson_init` in
`mongoc_uri_new` before parsing. -/
def mongoc_uri_empty : mongoc_uri_t :=
  { str := [], hosts := [], username := none, password := none,
    database := none, options := [], read_prefs := [] }

/-- The `.sock` literal searched for by `strstr` in the host-list stage. -/
def sock_suffix : List Char := '.' :: 's' :: 'o' :: 'c' :: 'k' :: []

/-- `mongoc_uri_append_host` (mongoc-uri.c:50): build a host entry and append
it at the tail of the list.  `family` is `AF_UNIX` iff the hostname contains
`.sock`; `host_and_port` is `snprintf("%s:%hu", host, port)`. -/
def mongoc_uri_append_host (uri : mongoc_uri_t) (host : List Char) (port : Nat) :
    mongoc_uri_t :=
  { uri with hosts := uri.hosts ++
      [{ host := host, port := port,
         family := if (strstr host sock_suffix).isSome then family_t.AF_UNIX
                   else family_t.AF_INET,
         host_and_port := host ++ ':' :: (toString port).data }] }

/-- The literal scheme `mongodb://`. -/
def mongodb_scheme : List Char :=
  'm' :: 'o' :: 'n' :: 'g' :: 'o' :: 'd' :: 'b' :: ':' :: '/' :: '/' :: []

/-- `mongoc_uri_parse_scheme` (mongoc-uri.c:103): require the literal prefix
`mongodb://` and advance past its 10 characters. -/
def mongoc_uri_parse_scheme (str : List Char) : Option (List Char) :=
  if mongodb_scheme.isPrefixOf str then some (str.drop 10) else none

/-- `mongoc_uri_parse_userpass` (mongoc-uri.c:117).  Returns
`(ok, uri, cursor)`; when the C code does not assign `*end` the returned
cursor is the input (the caller's variable is unchanged). -/
def mongoc_uri_parse_userpass (uri : mongoc_uri_t) (str : List Char) :
    Bool × mongoc_uri_t × List Char :=
  match scan_to_unichar '@' str with
  | some (s, end_userpass) =>
    match scan_to_unichar ':' s with
    | some (user, end_user) =>
      (true,
       { uri with username := some user, password := some (end_user.drop 1) },
       end_userpass.drop 1)
    | none => (false, uri, str)
  | none => (true, uri, str)

/-- `mongoc_uri_parse_host` (mongoc-uri.c:142): split one host token on the
first unescaped `:`; if present the next character must be a decimal digit
(else `FALSE`), and the port is read with `sscanf("%hu")`; otherwise the
whole token is the hostname with the default port. -/
def mongoc_uri_parse_host (uri : mongoc_uri_t) (str : List Char) :
    Bool × mongoc_uri_t :=
  match scan_to_unichar ':' str with
  | some (hostname, end_host) =>
    match end_host.drop 1 with
    | c :: rest =>
      if c.isDigit then
        (true, mongoc_uri_append_host uri hostname (sscanf_hu (c :: rest)))
      else (false, uri)
    | [] => (false, uri)
  | none => (true, mongoc_uri_append_host uri str MONGOC_DEFAULT_PORT)

/-- The guard of the domain-socket branch of `mongoc_uri_parse_hosts`
(mongoc-uri.c:195): the current character is `/`, `.sock` occurs in the
remaining string, and its first occurrence precedes the first `,` and the
first `?` (when those exist).  Returns the index of `.sock` when taken. -/
def sock_check (str : List Char) : Option Nat :=
  match str, strstr str sock_suffix with
  | '/' :: _, some si =>
    if (strstr str (',' :: [])).all (fun ci => decide (si < ci)) &&
       (strstr str ('?' :: [])).all (fun qi => decide (si < qi))
    then some si else none
  | _, _ => none

/-- The `again:` loop of `mongoc_uri_parse_hosts` (mongoc-uri.c:194-236),
with explicit fuel (outer `none` = fuel exhausted, which never happens with
fuel `> length`).  Result `some (ok, uri, cursor?)`: `cursor? = none` models
the paths that return without assigning `*end`. -/
def hostsLoop : Nat → Bool → mongoc_uri_t → List Char →
    Option (Bool × mongoc_uri_t × Option (List Char))
  | 0, _, _, _ => none
  | fuel + 1, ret, uri, str =>
    match sock_check str with
    | some si =>
      match mongoc_uri_parse_host uri (str.take (si + 5)) with
      | (false, uri2) => some (false, uri2, none)
      | (true, uri2) =>
        match str.drop (si + 5) with
        | ',' :: str3 => hostsLoop fuel true uri2 str3
        | _ => some (true, uri2, none)
    | none =>
      match scan_to_unichar ',' str with
      | some (s, end_hostport) =>
        match mongoc_uri_parse_host uri s with
        | (false, uri2) => some (false, uri2, none)
        | (true, uri2) => hostsLoop fuel true uri2 (end_hostport.drop 1)
      | none =>
        match (scan_to_unichar '/' str).orElse (fun _ => scan_to_unichar '?' str) with
        | some (s, end_hostport) =>
          match mongoc_uri_parse_host uri s with
          | (false, uri2) => some (false, uri2, none)
          | (true, uri2) => some (true, uri2, some end_hostport)
        | none =>
          if str = [] then some (ret, uri, none)
          else
            match mongoc_uri_parse_host uri str with
            | (false, uri2) => some (false, uri2, none)
            | (true, uri2) => some (true, uri2, some [])

/-- `mongoc_uri_parse_hosts` (mongoc-uri.c:169): run the loop with enough
fuel. -/
def mongoc_uri_parse_hosts (uri : mongoc_uri_t) (str : List Char) :
    Option (Bool × mongoc_uri_t × Option (List Char)) :=
  hostsLoop (str.length + 1) false uri str

/-- `mongoc_uri_parse_database` (mongoc-uri.c:240): capture up to the first
unescaped `?` (cursor left at the `?`), else — when the string is nonempty —
the whole remainder (cursor at end of string).  Always returns `TRUE`. -/
def mongoc_uri_parse_database (uri : mongoc_uri_t) (str : List Char) :
    Bool × mongoc_uri_t × List Char :=
  match scan_to_unichar '?' str with
  | some (d, end_database) => (true, { uri with database := some d }, end_database)
  | none =>
    if str = [] then (true, uri, str)
    else (true, { uri with database := some str }, [])

/-- The `again:` loop of `mongoc_uri_parse_read_prefs` (mongoc-uri.c:272-286)
building one tag-group document `b`, with explicit fuel. -/
def readPrefsLoop : Nat → List (List Char × List Char) → List Char →
    Option (List (List Char × List Char))
  | 0, _, _ => none
  | fuel + 1, b, str =>
    match scan_to_unichar ',' str with
    | some (keyval, end_keyval) =>
      let b2 :=
        match scan_to_unichar ':' keyval with
        | some (key, end_key) => b ++ [(key, end_key.drop 1)]
        | none => b
      readPrefsLoop fuel b2 (end_keyval.drop 1)
    | none =>
      match scan_to_unichar ':' str with
      | some (key, end_key) => some (b ++ [(key, end_key.drop 1)])
      | none => some b

/-- `mongoc_uri_parse_read_prefs` (mongoc-uri.c:258): build one tag group
from the option value and append it as one document to `read_prefs`. -/
def mongoc_uri_parse_read_prefs (uri : mongoc_uri_t) (str : List Char) :
    mongoc_uri_t :=
  match readPrefsLoop (str.length + 1) [] str with
  | some b => { uri with read_prefs := uri.read_prefs ++ [b] }
  | none => uri

/-- The option keys coerced to `Int32` (mongoc-uri.c:310-317). -/
def int32_keys : List (List Char) :=
  ["connecttimeoutms", "sockettimeoutms", "maxpoolsize", "minpoolsize",
   "maxidletimems", "waitqueuemultiple", "waitqueuetimeoutms",
   "wtimeoutms"].map String.data

/-- `mongoc_uri_parse_option` (mongoc-uri.c:295): split one option token on
the first unescaped `=` (absence is `FALSE`), then coerce the value by
case-insensitive key match and append it to `options` (or, for
`readpreferencetags`, append a tag group to `read_prefs`). -/
def mongoc_uri_parse_option (uri : mongoc_uri_t) (str : List Char) :
    Bool × mongoc_uri_t :=
  match scan_to_unichar '=' str with
  | none => (false, uri)
  | some (key, end_key) =>
    let value := end_key.drop 1
    if int32_keys.any (fun k => strcaseeq key k) then
      (true, { uri with options := uri.options ++ [(key, bson_value.int32 (strtol_int32 value))] })
    else if strcaseeq key ('w' :: []) then
      match value with
      | c :: _ =>
        if c = '-' ∨ c.isDigit then
          (true, { uri with options := uri.options ++ [(key, bson_value.int32 (strtol_int32 value))] })
        else
          (true, { uri with options := uri.options ++ [(key, bson_value.utf8 value)] })
      | [] =>
        (true, { uri with options := uri.options ++ [(key, bson_value.utf8 value)] })
    else if strcaseeq key ("journal".data) ∨ strcaseeq key ("slaveok".data) ∨
            strcaseeq key ("ssl".data) then
      (true, { uri with options := uri.options ++ [(key, bson_value.bool (value == "true".data))] })
    else if strcaseeq key ("readpreferencetags".data) then
      (true, mongoc_uri_parse_read_prefs uri value)
    else
      (true, { uri with options := uri.options ++ [(key, bson_value.utf8 value)] })

/-- The `again:` loop of `mongoc_uri_parse_options` (mongoc-uri.c:351-364),
with explicit fuel. -/
def optionsLoop : Nat → mongoc_uri_t → List Char → Option (Bool × mongoc_uri_t)
  | 0, _, _ => none
  | fuel + 1, uri, str =>
    match scan_to_unichar '&' str with
    | some (option, end_option) =>
      match mongoc_uri_parse_option uri option with
      | (false, uri2) => some (false, uri2)
      | (true, uri2) => optionsLoop fuel uri2 (end_option.drop 1)
    | none =>
      if str = [] then some (true, uri)
      else
        match mongoc_uri_parse_option uri str with
        | (false, uri2) => some (false, uri2)
        | (true, uri2) => some (true, uri2)

/-- `mongoc_uri_parse_options` (mongoc-uri.c:344): run the loop with enough
fuel. -/
def mongoc_uri_parse_options (uri : mongoc_uri_t) (str : List Char) :
    Option (Bool × mongoc_uri_t) :=
  optionsLoop (str.length + 1) uri str

/-- The `switch (*str)` tail of `mongoc_uri_parse` (mongoc-uri.c:386-404):
the database stage runs only under a leading `/` with a nonempty remainder;
reaching `?` (directly or by fall-through) runs the option stage. -/
def mongoc_uri_parse_tail (uri : mongoc_uri_t) (str : List Char) :
    Bool × mongoc_uri_t :=
  match str with
  | '/' :: rest =>
    if rest = [] then (true, uri)
    else
      match mongoc_uri_parse_database uri rest with
      | (false, uri2, _) => (false, uri2)
      | (true, uri2, rest2) =>
        if rest2 = [] then (true, uri2)
        else
          let rest3 := rest2.drop 1
          if rest3 = [] then (true, uri2)
          else
            match mongoc_uri_parse_options uri2 rest3 with
            | none => (false, uri2)
            | some (ok, uri3) => (ok, uri3)
  | '?' :: rest =>
    if rest = [] then (true, uri)
    else
      match mongoc_uri_parse_options uri rest with
      | none => (false, uri)
      | some (ok, uri3) => (ok, uri3)
  | _ => (true, uri)

/-- `mongoc_uri_parse` (mongoc-uri.c:370): stages in order — scheme,
userinfo, host list, then the database/options tail.  When the host stage
returns without assigning `*end`, the caller's cursor keeps the value it had
before that call (`endOpt.getD s2`). -/
def mongoc_uri_parse (uri : mongoc_uri_t) (str : List Char) :
    Bool × mongoc_uri_t :=
  match mongoc_uri_parse_scheme str with
  | none => (false, uri)
  | some s1 =>
    if s1 = [] then (false, uri)
    else
      match mongoc_uri_parse_userpass uri s1 with
      | (false, u2, _) => (false, u2)
      | (true, u2, s2) =>
        if s2 = [] then (false, u2)
        else
          match mongoc_uri_parse_hosts u2 s2 with
          | none => (false, u2)
          | some (false, u3, _) => (false, u3)
          | some (true, u3, endOpt) => mongoc_uri_parse_tail u3 (endOpt.getD s2)

/-- `mongoc_uri_new` (mongoc-uri.c:418): parse into a fresh zeroed uri; on
failure destroy it and return `NULL`; on success record the original
string. -/
def mongoc_uri_new (uri_string : List Char) : Option mongoc_uri_t :=
  match mongoc_uri_parse mongoc_uri_empty uri_string with
  | (false, _) => none
  | (true, uri) => some { uri with str := uri_string }

/-- `mongoc_uri_copy` (mongoc-uri.c:476): re-parse the retained string. -/
def mongoc_uri_copy (uri : mongoc_uri_t) : Option mongoc_uri_t :=
  mongoc_uri_new uri.str

/-- `mongoc_uri_get_hosts` (mongoc-uri.c:410). -/
def mongoc_uri_get_hosts (uri : mongoc_uri_t) : List mongoc_host_list_t :=
  uri.hosts

/-- `mongoc_uri_get_database` (mongoc-uri.c:439). -/
def mongoc_uri_get_database (uri : mongoc_uri_t) : Option (List Char) :=
  uri.database

/-- `mongoc_uri_get_options` (mongoc-uri.c:447). -/
def mongoc_uri_get_options (uri : mongoc_uri_t) : List (List Char × bson_value) :=
  uri.options

/-- `mongoc_uri_get_read_preferences` (mongoc-uri.c:491). -/
def mongoc_uri_get_read_preferences (uri : mongoc_uri_t) :
    List (List (List Char × List Char)) :=
  uri.read_prefs

/-- The database text captured by `mongoc_uri_parse_database` from a
nonempty cursor: everything before the first unescaped `?`, else the whole
remainder. -/
def parse_database_capture (s : List Char) : List Char :=
  (scan_to_unichar '?' s).elim s Prod.fst

/-- Modelled from the spec (§4.6): one tag token yields a key/value pair iff
it contains an unescaped `:` (key before the `:`, value after); a token
without one produces nothing. -/
def spec_tag_of (t : List Char) : Option (List Char × List Char) :=
  (scan_to_unichar ':' t).map (fun p => (p.1, p.2.drop 1))

/-- Modelled from the spec (§4.6): split the value of one
`readpreferencetags` occurrence on unescaped `,` into tag tokens (fueled
recursion, mirroring the loop; the wrapper supplies sufficient fuel). -/
def spec_tag_tokens_go : Nat → List Char → List (List Char)
  | 0, str => [str]
  | fuel + 1, str =>
    match scan_to_unichar ',' str with
    | some (t, rest) => t :: spec_tag_tokens_go fuel (rest.drop 1)
    | none => [str]

/-- Modelled from the spec (§4.6): the comma-separated tag tokens of one
option value. -/
def spec_tag_tokens (str : List Char) : List (List Char) :=
  spec_tag_tokens_go (str.length + 1) str

/-- Modelled from the spec (§4.6): the single tag group produced by one
`readpreferencetags` occurrence — exactly the key/value pairs of the tokens
that contain an unescaped `:`, the rest silently dropped. -/
def spec_tag_group (str : List Char) : List (List Char × List Char) :=
  (spec_tag_tokens str).filterMap spec_tag_of

/-- `mongoc_uri_get_string` (mongoc-uri.c:483). -/
def mongoc_uri_get_string (uri : mongoc_uri_t) : List Char :=
  uri.str

/-- On a successful scan, the captured prefix and remainder reassemble the
input and the remainder starts with the stop character. -/
theorem scan_to_unichar_sound (stop : Char) :
    ∀ (s p r : List Char), scan_to_unichar stop s = some (p, r) →
      p ++ r = s ∧ ∃ t, r = stop :: t := by
  intro s
  induction s using scan_to_unichar.induct stop with
  | case1 =>
    intro p r h
    simp [scan_to_unichar] at h
  | case2 x =>
    intro p r h
    rw [scan_to_unichar.eq_def] at h
    simp at h
    obtain ⟨hp, hr⟩ := h
    subst hp; subst hr
    exact ⟨rfl, x, rfl⟩
  | case3 hx =>
    intro p r h
    rw [scan_to_unichar.eq_def] at h
    simp [hx] at h
  | case4 a b hc ih =>
    intro p r h
    rw [scan_to_unichar.eq_def] at h
    simp [hc] at h
    obtain ⟨p2, hscan, hp⟩ := h
    obtain ⟨happ, t, ht⟩ := ih p2 r hscan
    subst hp
    exact ⟨by simp [happ], t, ht⟩
  | case5 a rest hstop hbs ih =>
    intro p r h
    rw [scan_to_unichar.eq_def] at h
    simp [hstop, hbs] at h
    obtain ⟨p2, hscan, hp⟩ := h
    obtain ⟨happ, t, ht⟩ := ih p2 r hscan
    subst hp
    exact ⟨by simp [happ], t, ht⟩

/-- The text after the stop character of a successful scan is strictly
shorter than the scanned string: each loop that re-enters after consuming a
separator strictly advances. -/
theorem scan_to_unichar_drop_lt (stop : Char) (s p r : List Char)
    (h : scan_to_unichar stop s = some (p, r)) :
    (r.drop 1).length < s.length := by
  obtain ⟨happ, t, ht⟩ := scan_to_unichar_sound stop s p r h
  subst ht
  have hlen := congrArg List.length happ
  simp at hlen
  simp
  omega

/-- `mongoc_uri_parse_host` fails without touching the uri. -/
theorem parse_host_false (uri : mongoc_uri_t) (s : List Char)
    (u2 : mongoc_uri_t) (h : mongoc_uri_parse_host uri s = (false, u2)) :
    u2 = uri := by
  unfold mongoc_uri_parse_host at h
  split at h
  · split at h
    · split at h <;> simp_all
    · simp_all
  · simp_all

/-- A successful `mongoc_uri_parse_host` appends exactly one host entry and
changes nothing else. -/
theorem parse_host_true (uri : mongoc_uri_t) (s : List Char)
    (u2 : mongoc_uri_t) (h : mongoc_uri_parse_host uri s = (true, u2)) :
    ∃ host port, u2 = mongoc_uri_append_host uri host port := by
  unfold mongoc_uri_parse_host at h
  split at h
  · split at h
    · split at h
      · injection h with h1 h2
        exact ⟨_, _, h2.symm⟩
      · simp_all
    · simp_all
  · injection h with h1 h2
    exact ⟨_, _, h2.symm⟩

/-- `mongoc_uri_append_host` grows the host list by one and keeps all other
fields. -/
theorem append_host_fields (uri : mongoc_uri_t) (host : List Char) (port : Nat) :
    (mongoc_uri_append_host uri host port).hosts.length = uri.hosts.length + 1 ∧
    (mongoc_uri_append_host uri host port).database = uri.database ∧
    (mongoc_uri_append_host uri host port).username = uri.username ∧
    (mongoc_uri_append_host uri host port).options = uri.options := by
  simp [mongoc_uri_append_host]

/-- With fuel exceeding the cursor length, the host-list loop never runs out
of fuel: every re-entry of `again:` strictly shortens the remaining string. -/
theorem hostsLoop_ne_none :
    ∀ (fuel : Nat) (ret : Bool) (uri : mongoc_uri_t) (str : List Char),
      str.length < fuel → hostsLoop fuel ret uri str ≠ none := by
  intro fuel
  induction fuel with
  | zero => intro ret uri str h; omega
  | succ n ih =>
    intro ret uri str hlen
    simp only [hostsLoop]
    split
    · rename_i si hsock
      split
      · simp
      · split
        · rename_i uri2 hhost str3 hdrop
          apply ih
          have hd := congrArg List.length hdrop
          simp at hd
          omega
        · simp
    · split
      · rename_i s end_hostport hscan
        split
        · simp
        · apply ih
          have := scan_to_unichar_drop_lt ',' str s end_hostport hscan
          omega
      · split
        · split <;> simp
        · split
          · simp
          · split <;> simp

/-- With fuel exceeding the cursor length, the option-list loop never runs
out of fuel. -/
theorem optionsLoop_ne_none :
    ∀ (fuel : Nat) (uri : mongoc_uri_t) (str : List Char),
      str.length < fuel → optionsLoop fuel uri str ≠ none := by
  intro fuel
  induction fuel with
  | zero => intro uri str h; omega
  | succ n ih =>
    intro uri str hlen
    simp only [optionsLoop]
    split
    · rename_i option end_option hscan
      split
      · simp
      · apply ih
        have := scan_to_unichar_drop_lt '&' str option end_option hscan
        omega
    · split
      · simp
      · split <;> simp

/-- With fuel exceeding the cursor length, the tag-group loop never runs out
of fuel. -/
theorem readPrefsLoop_ne_none :
    ∀ (fuel : Nat) (b : List (List Char × List Char)) (str : List Char),
      str.length < fuel → readPrefsLoop fuel b str ≠ none := by
  intro fuel
  induction fuel with
  | zero => intro b str h; omega
  | succ n ih =>
    intro b str hlen
    simp only [readPrefsLoop]
    split
    · rename_i keyval end_keyval hscan
      apply ih
      have := scan_to_unichar_drop_lt ',' str keyval end_keyval hscan
      omega
    · split <;> simp

/-- A host-list loop run that returns `TRUE` has appended at least one host
when it was entered with `ret = FALSE`, and never removes hosts. -/
theorem hostsLoop_growth :
    ∀ (fuel : Nat) (ret : Bool) (uri : mongoc_uri_t) (str : List Char)
      (uri2 : mongoc_uri_t) (e : Option (List Char)),
      hostsLoop fuel ret uri str = some (true, uri2, e) →
      uri.hosts.length + (if ret then 0 else 1) ≤ uri2.hosts.length := by
  intro fuel
  induction fuel with
  | zero => intro ret uri str uri2 e h; simp [hostsLoop] at h
  | succ n ih =>
    intro ret uri str uri2 e h
    simp only [hostsLoop] at h
    split at h
    · split at h
      · simp at h
      · rename_i uriMid hhost
        obtain ⟨host, port, hm⟩ := parse_host_true _ _ _ hhost
        have hgrow := (append_host_fields uri host port).1
        split at h
        · have := ih true uriMid _ uri2 e h
          subst hm
          cases ret <;> simp_all <;> omega
        · simp at h
          obtain ⟨h1, h2⟩ := h
          subst hm
          subst h1
          cases ret <;> simp_all
    · split at h
      · split at h
        · simp at h
        · rename_i uriMid hhost
          obtain ⟨host, port, hm⟩ := parse_host_true _ _ _ hhost
          have hgrow := (append_host_fields uri host port).1
          have := ih true uriMid _ uri2 e h
          subst hm
          cases ret <;> simp_all <;> omega
      · split at h
        · split at h
          · simp at h
          · rename_i uriMid hhost
            obtain ⟨host, port, hm⟩ := parse_host_true _ _ _ hhost
            have hgrow := (append_host_fields uri host port).1
            simp at h
            obtain ⟨h1, h2⟩ := h
            subst hm
            subst h1
            cases ret <;> simp_all
        · split at h
          · simp at h
            obtain ⟨hr, h1, h2⟩ := h
            subst hr
            subst h1
            simp
          · split at h
            · simp at h
            · rename_i uriMid hhost
              obtain ⟨host, port, hm⟩ := parse_host_true _ _ _ hhost
              have hgrow := (append_host_fields uri host port).1
              simp at h
              obtain ⟨h1, h2⟩ := h
              subst hm
              subst h1
              cases ret <;> simp_all

/-- `mongoc_uri_parse_read_prefs` only appends to `read_prefs`. -/
theorem parse_read_prefs_shape (uri : mongoc_uri_t) (v : List Char) :
    ∃ g, mongoc_uri_parse_read_prefs uri v =
      { uri with read_prefs := uri.read_prefs ++ g } := by
  unfold mongoc_uri_parse_read_prefs
  split
  · exact ⟨_, rfl⟩
  · exact ⟨[], by simp⟩

/-- `mongoc_uri_parse_option` never modifies the host list or the database
field. -/
theorem parse_option_keeps (uri : mongoc_uri_t) (s : List Char) :
    (mongoc_uri_parse_option uri s).2.hosts = uri.hosts ∧
    (mongoc_uri_parse_option uri s).2.database = uri.database := by
  unfold mongoc_uri_parse_option
  split
  · simp
  · dsimp only
    split
    · simp
    · split
      · split
        · split <;> simp
        · simp
      · split
        · simp
        · split
          · obtain ⟨g, hg⟩ := parse_read_prefs_shape uri _
            rw [hg]
            simp
          · simp

/-- The option loop never modifies the host list or the database field. -/
theorem optionsLoop_keeps :
    ∀ (fuel : Nat) (uri : mongoc_uri_t) (s : List Char) (ok : Bool)
      (u2 : mongoc_uri_t), optionsLoop fuel uri s = some (ok, u2) →
      u2.hosts = uri.hosts ∧ u2.database = uri.database := by
  intro fuel
  induction fuel with
  | zero => intro uri s ok u2 h; simp [optionsLoop] at h
  | succ n ih =>
    intro uri s ok u2 h
    simp only [optionsLoop] at h
    split at h
    · rename_i option end_option hscan
      split at h
      · rename_i uriMid hopt
        simp at h
        obtain ⟨h1, h2⟩ := h
        subst h2
        have := parse_option_keeps uri option
        rw [hopt] at this
        simp_all
      · rename_i uriMid hopt
        have hk := parse_option_keeps uri option
        rw [hopt] at hk
        have := ih uriMid _ ok u2 h
        simp_all
    · split at h
      · simp at h
        obtain ⟨h1, h2⟩ := h
        subst h2
        simp
      · split at h
        · rename_i uriMid hopt
          simp at h
          obtain ⟨h1, h2⟩ := h
          subst h2
          have := parse_option_keeps uri s
          rw [hopt] at this
          simp_all
        · rename_i uriMid hopt
          simp at h
          obtain ⟨h1, h2⟩ := h
          subst h2
          have := parse_option_keeps uri s
          rw [hopt] at this
          simp_all

/-- `mongoc_uri_parse_database` always succeeds; on a nonempty input it sets
`database` to the captured text and leaves every other field unchanged. -/
theorem parse_database_spec (uri : mongoc_uri_t) (s : List Char) (hs : s ≠ []) :
    ∃ cur, mongoc_uri_parse_database uri s =
      (true, { uri with database := some (parse_database_capture s) }, cur) := by
  unfold mongoc_uri_parse_database parse_database_capture
  split
  · rename_i d e hscan
    exact ⟨e, by rw [hscan]; simp⟩
  · rename_i hscan
    rw [if_neg hs, hscan]
    exact ⟨[], by simp⟩

/-- `mongoc_uri_parse_database` never touches the host list. -/
theorem parse_database_hosts (uri : mongoc_uri_t) (s : List Char) :
    (mongoc_uri_parse_database uri s).2.1.hosts = uri.hosts := by
  unfold mongoc_uri_parse_database
  split
  · simp
  · split <;> simp

/-- The database/options tail never modifies the host list. -/
theorem parse_tail_hosts (uri : mongoc_uri_t) (s : List Char) :
    (mongoc_uri_parse_tail uri s).2.hosts = uri.hosts := by
  unfold mongoc_uri_parse_tail
  split
  · rename_i rest
    split
    · simp
    · split
      · rename_i uri2 cur hdb
        have hk := parse_database_hosts uri rest
        rw [hdb] at hk
        simpa using hk
      · rename_i uri2 cur hdb
        have hk := parse_database_hosts uri rest
        rw [hdb] at hk
        simp at hk
        dsimp only
        split
        · simpa using hk
        · split
          · simpa using hk
          · split
            · simpa using hk
            · rename_i ok uri3 hopts
              have := optionsLoop_keeps _ uri2 _ ok uri3 hopts
              simp_all
  · rename_i rest
    split
    · simp
    · split
      · simp
      · rename_i ok uri3 hopts
        have := optionsLoop_keeps _ uri _ ok uri3 hopts
        simp_all
  · simp

/-- The tag-group loop computes exactly the spec-side tag group, appended to
its accumulator. -/
theorem readPrefsLoop_eq :
    ∀ (fuel : Nat) (b : List (List Char × List Char)) (str : List Char)
      (r : List (List Char × List Char)), readPrefsLoop fuel b str = some r →
      r = b ++ (spec_tag_tokens_go fuel str).filterMap spec_tag_of := by
  intro fuel
  induction fuel with
  | zero => intro b str r h; simp [readPrefsLoop] at h
  | succ n ih =>
    intro b str r h
    simp only [readPrefsLoop] at h
    simp only [spec_tag_tokens_go]
    split at h
    · rename_i kv ek hscan
      cases hkv : scan_to_unichar ':' kv with
      | none =>
        rw [hkv] at h
        dsimp only at h
        have := ih b (ek.drop 1) r h
        simpa [spec_tag_of, hkv] using this
      | some p =>
        rw [hkv] at h
        dsimp only at h
        have := ih (b ++ [(p.1, p.2.drop 1)]) (ek.drop 1) r h
        simpa [spec_tag_of, hkv] using this
    · rename_i hscan
      split at h
      · rename_i key end_key hcolon
        simp at h
        subst h
        simp [spec_tag_of, hcolon]
      · rename_i hcolon
        simp at h
        subst h
        simp [spec_tag_of, hcolon]

/-- `mongoc_uri_parse_userpass` never modifies the host list or database. -/
theorem parse_userpass_keeps (uri : mongoc_uri_t) (s : List Char) :
    (mongoc_uri_parse_userpass uri s).2.1.hosts = uri.hosts := by
  unfold mongoc_uri_parse_userpass
  split
  · split <;> simp
  · simp

/-- A successful `mongoc_uri_parse` strictly grows the host list. -/
theorem parse_true_hosts (uri0 : mongoc_uri_t) (s : List Char)
    (u' : mongoc_uri_t) (h : mongoc_uri_parse uri0 s = (true, u')) :
    uri0.hosts.length < u'.hosts.length := by
  unfold mongoc_uri_parse at h
  split at h
  · simp at h
  · rename_i s1 hscheme
    split at h
    · simp at h
    · split at h
      · simp at h
      · rename_i u2 s2 huser
        have hu2 : u2.hosts = uri0.hosts := by
          have := parse_userpass_keeps uri0 s1
          rw [huser] at this
          simpa using this
        split at h
        · simp at h
        · split at h
          · simp at h
          · simp at h
          · rename_i u3 endOpt hhosts
            have hgrow := hostsLoop_growth (s2.length + 1) false u2 s2 u3 endOpt hhosts
            have htail := parse_tail_hosts u3 (endOpt.getD s2)
            rw [h] at htail
            simp at htail hgrow
            have h1 := congrArg List.length hu2
            have h2 := congrArg List.length htail
            omega

/-- A list is a prefix (in the Boolean `isPrefixOf` sense) of itself followed
by anything. -/
theorem isPrefixOf_append_self (l t : List Char) : l.isPrefixOf (l ++ t) = true := by
  induction l with
  | nil => simp [List.isPrefixOf]
  | cons c cs ih => simp [List.isPrefixOf, ih]

/-- Claim C1: `parse` is atomic — `mongoc_uri_new` returns the fully built
uri exactly when `mongoc_uri_parse` succeeds and `NULL` (`none`) whenever any
stage fails, so no partially populated uri is ever observable; the concrete
part exhibits a failing input on which a host had already been appended
before the failure, yet the caller still receives `none`. -/
theorem mongoc_uri_new_atomic :
    (∀ s : List Char,
      ((mongoc_uri_parse mongoc_uri_empty s).1 = false →
        mongoc_uri_new s = none) ∧
      (∀ u', mongoc_uri_parse mongoc_uri_empty s = (true, u') →
        mongoc_uri_new s = some { u' with str := s })) ∧
    ((mongoc_uri_parse mongoc_uri_empty ("mongodb://a,b:x".data)).1 = false ∧
     (mongoc_uri_parse mongoc_uri_empty ("mongodb://a,b:x".data)).2.hosts.length = 1 ∧
     mongoc_uri_new ("mongodb://a,b:x".data) = none) := by
  constructor
  · intro s
    constructor
    · intro hf
      unfold mongoc_uri_new
      cases h : mongoc_uri_parse mongoc_uri_empty s with
      | mk ok u =>
        rw [h] at hf
        simp at hf
        subst hf
        rfl
    · intro u' ht
      unfold mongoc_uri_new
      rw [ht]
  · exact ⟨by decide, by decide, by decide⟩

/-- Witness for C1 at concrete inputs. -/
theorem mongoc_uri_new_atomic_witness :
    mongoc_uri_new ("notmongodb://h".data) = none ∧
    mongoc_uri_new ("mongodb://h".data) =
      some { str := "mongodb://h".data,
             hosts := [{ host := "h".data, port := 27017,
                         family := family_t.AF_INET,
                         host_and_port := "h:27017".data }],
             username := none, password := none, database := none,
             options := [], read_prefs := [] } := by
  constructor
  · exact (mongoc_uri_new_atomic.1 _).1 (by decide)
  · exact (mongoc_uri_new_atomic.1 _).2
      { str := [],
        hosts := [{ host := "h".data, port := 27017,
                    family := family_t.AF_INET,
                    host_and_port := "h:27017".data }],
        username := none, password := none, database := none,
        options := [], read_prefs := [] } (by decide)

/-- Claim C2: on every successful parse the host list is nonempty. -/
theorem mongoc_uri_new_hosts_nonempty :
    ∀ (s : List Char) (u : mongoc_uri_t),
      mongoc_uri_new s = some u → u.hosts ≠ [] := by
  intro s u h
  unfold mongoc_uri_new at h
  split at h
  · simp at h
  · rename_i uri hparse
    simp at h
    subst h
    have hlen := parse_true_hosts mongoc_uri_empty s uri hparse
    simp [mongoc_uri_empty] at hlen
    intro hc
    simp at hc
    rw [hc] at hlen
    simp at hlen

/-- Witness for C2 at a concrete input. -/
theorem mongoc_uri_new_hosts_nonempty_witness :
    ∃ u, mongoc_uri_new ("mongodb://h".data) = some u ∧ u.hosts ≠ [] := by
  have h : mongoc_uri_new ("mongodb://h".data) =
      some { str := "mongodb://h".data,
             hosts := [{ host := "h".data, port := 27017,
                         family := family_t.AF_INET,
                         host_and_port := "h:27017".data }],
             username := none, password := none, database := none,
             options := [], read_prefs := [] } := by decide
  exact ⟨_, h, mongoc_uri_new_hosts_nonempty _ _ h⟩

/-- Claim C3 (code bug): when the final host token is consumed by the
domain-socket branch and is not followed by a comma, `mongoc_uri_parse_hosts`
returns `TRUE` without assigning `*end` (the `none` cursor below), so the
caller resumes from the start of the host list; consequently
`parse("mongodb:///tmp/x.sock/db")` yields database `tmp/x.sock/db` instead
of the documented `db`. -/
theorem parse_hosts_sock_cursor_bug :
    mongoc_uri_parse_hosts mongoc_uri_empty ("/tmp/x.sock/db".data) =
      some (true,
        { mongoc_uri_empty with
            hosts := [{ host := "/tmp/x.sock".data, port := 27017,
                        family := family_t.AF_UNIX,
                        host_and_port := "/tmp/x.sock:27017".data }] },
        none) ∧
    (mongoc_uri_new ("mongodb:///tmp/x.sock/db".data)).map
      (fun u => (u.hosts.map (fun h => h.host), u.database)) =
      some (["/tmp/x.sock".data], some ("tmp/x.sock/db".data)) := by
  constructor
  · decide
  · decide

/-- Counterexample for C4: after `/?` the database stage still runs and
captures the empty string, so the parse of `mongodb://h/?ssl=true` has
database `Some ""`, not no database. -/
theorem database_slash_question_cex :
    (mongoc_uri_new ("mongodb://h/?ssl=true".data)).map mongoc_uri_get_database =
      some (some []) ∧
    (mongoc_uri_new ("mongodb://h/?ssl=true".data)).map mongoc_uri_get_database ≠
      some none := by
  constructor
  · decide
  · decide

/-- Claim C4 as amended: the database stage is triggered only under a
leading `/`; with a nonempty remainder it always captures — the text before
the first unescaped `?`, which is the empty string when `?` follows the `/`
directly — while a bare trailing `/` leaves the database unset. -/
theorem database_stage_amended :
    (∀ (uri : mongoc_uri_t) (str : List Char), str.head? ≠ some '/' →
      (mongoc_uri_parse_tail uri str).2.database = uri.database) ∧
    (∀ (uri : mongoc_uri_t) (rest : List Char), rest ≠ [] →
      (mongoc_uri_parse_tail uri ('/' :: rest)).2.database =
        some (parse_database_capture rest)) ∧
    (∀ uri : mongoc_uri_t,
      (mongoc_uri_parse_tail uri ('/' :: [])).2.database = uri.database) ∧
    (mongoc_uri_new ("mongodb://h/?ssl=true".data)).map mongoc_uri_get_database =
      some (some []) ∧
    (mongoc_uri_new ("mongodb://h/".data)).map mongoc_uri_get_database =
      some none := by
  refine ⟨?a, ?b, ?c, by decide, by decide⟩
  case a =>
    intro uri str hne
    unfold mongoc_uri_parse_tail
    split
    · rename_i rest
      simp at hne
    · rename_i rest
      split
      · simp
      · split
        · simp
        · rename_i ok uri3 hopts
          have := optionsLoop_keeps _ uri _ ok uri3 hopts
          simp_all
    · rfl
  case b =>
    intro uri rest hrest
    simp only [mongoc_uri_parse_tail]
    rw [if_neg hrest]
    obtain ⟨cur, hdb⟩ := parse_database_spec uri rest hrest
    rw [hdb]
    dsimp only
    split
    · simp
    · split
      · simp
      · split
        · simp
        · rename_i ok uri3 hopts
          have := optionsLoop_keeps _ _ _ ok uri3 hopts
          simp_all
  case c =>
    intro uri
    rfl

/-- Witness for C4's amended theorem at concrete inputs. -/
theorem database_stage_amended_witness :
    (mongoc_uri_parse_tail mongoc_uri_empty ('x' :: [])).2.database = none ∧
    (mongoc_uri_parse_tail mongoc_uri_empty ('/' :: '?' :: 'a' :: [])).2.database =
      some [] := by
  constructor
  · rw [database_stage_amended.1 mongoc_uri_empty ('x' :: []) (by decide)]
    rfl
  · rw [database_stage_amended.2.1 mongoc_uri_empty ('?' :: 'a' :: []) (by decide)]
    decide

/-- Claim C5: options form an ordered multimap — every successful
`mongoc_uri_parse_option` only appends to `options` (never overwrites), and
`parse("mongodb://h/?w=majority&w=3")` keeps both `w` entries in order. -/
theorem options_ordered_multimap :
    (∀ (uri : mongoc_uri_t) (str : List Char) (u2 : mongoc_uri_t),
      mongoc_uri_parse_option uri str = (true, u2) →
      ∃ tail, u2.options = uri.options ++ tail) ∧
    (mongoc_uri_new ("mongodb://h/?w=majority&w=3".data)).map mongoc_uri_get_options =
      some [("w".data, bson_value.utf8 ("majority".data)),
            ("w".data, bson_value.int32 3)] := by
  constructor
  · intro uri str u2 h
    unfold mongoc_uri_parse_option at h
    split at h
    · simp at h
    · dsimp only at h
      split at h
      · injection h with h1 h2
        subst h2
        exact ⟨_, rfl⟩
      · split at h
        · split at h
          · split at h
            · injection h with h1 h2
              subst h2
              exact ⟨_, rfl⟩
            · injection h with h1 h2
              subst h2
              exact ⟨_, rfl⟩
          · injection h with h1 h2
            subst h2
            exact ⟨_, rfl⟩
        · split at h
          · injection h with h1 h2
            subst h2
            exact ⟨_, rfl⟩
          · split at h
            · injection h with h1 h2
              subst h2
              obtain ⟨g, hg⟩ := parse_read_prefs_shape uri _
              exact ⟨[], by rw [hg]; simp⟩
            · injection h with h1 h2
              subst h2
              exact ⟨_, rfl⟩
  · decide

/-- Witness for C5's append property at a concrete option. -/
theorem options_ordered_multimap_witness :
    ∃ tail,
      ({ mongoc_uri_empty with
          options := [("a".data, bson_value.utf8 ("b".data))] } :
        mongoc_uri_t).options = mongoc_uri_empty.options ++ tail :=
  options_ordered_multimap.1 mongoc_uri_empty ("a=b".data)
    { mongoc_uri_empty with options := [("a".data, bson_value.utf8 ("b".data))] }
    (by decide)

/-- Claim C6: `parse("mongodb://a,b:27018,/tmp/x.sock,c/")` succeeds with
exactly four hosts in encounter order, with the stated ports and address
families. -/
theorem mongoc_uri_new_four_hosts :
    (mongoc_uri_new ("mongodb://a,b:27018,/tmp/x.sock,c/".data)).map
      (fun u => u.hosts.map (fun h => (h.host, h.port, h.family))) =
    some [("a".data, 27017, family_t.AF_INET),
          ("b".data, 27018, family_t.AF_INET),
          ("/tmp/x.sock".data, 27017, family_t.AF_UNIX),
          ("c".data, 27017, family_t.AF_INET)] := by
  decide

/-- Claim C7: if the post-scheme remainder contains an unescaped `@` and the
text before it has no unescaped `:`, the whole parse fails; with a `:`, the
parts before and after it become username and password and the cursor
advances past the `@`. -/
theorem userinfo_colon_required :
    (∀ (rest s r : List Char), scan_to_unichar '@' rest = some (s, r) →
      scan_to_unichar ':' s = none →
      mongoc_uri_new (mongodb_scheme ++ rest) = none) ∧
    (∀ (uri : mongoc_uri_t) (rest s r u cr : List Char),
      scan_to_unichar '@' rest = some (s, r) →
      scan_to_unichar ':' s = some (u, cr) →
      mongoc_uri_parse_userpass uri rest =
        (true, { uri with username := some u, password := some (cr.drop 1) },
         r.drop 1)) := by
  constructor
  · intro rest s r hat hcolon
    have hpre : mongodb_scheme.isPrefixOf (mongodb_scheme ++ rest) = true :=
      isPrefixOf_append_self mongodb_scheme rest
    have hdrop : (mongodb_scheme ++ rest).drop 10 = rest := by
      have h10 : mongodb_scheme.length = 10 := rfl
      rw [← h10]
      exact List.drop_left _ _
    unfold mongoc_uri_new mongoc_uri_parse mongoc_uri_parse_scheme
    rw [if_pos hpre, hdrop]
    rcases rest with _ | ⟨c, t⟩
    · simp [scan_to_unichar] at hat
    · dsimp only
      rw [if_neg (by simp)]
      unfold mongoc_uri_parse_userpass
      rw [hat]
      dsimp only
      rw [hcolon]
  · intro uri rest s r u cr hat hcolon
    unfold mongoc_uri_parse_userpass
    rw [hat]
    dsimp only
    rw [hcolon]

/-- Witness for C7 at concrete inputs. -/
theorem userinfo_colon_required_witness :
    mongoc_uri_new (mongodb_scheme ++ ('u' :: '@' :: 'h' :: [])) = none ∧
    mongoc_uri_parse_userpass mongoc_uri_empty ("u:p@h".data) =
      (true,
       { mongoc_uri_empty with
           username := some ('u' :: []), password := some ('p' :: []) },
       ('h' :: [])) := by
  constructor
  · exact userinfo_colon_required.1 ('u' :: '@' :: 'h' :: []) ('u' :: [])
      ('@' :: 'h' :: []) (by decide) (by decide)
  · exact userinfo_colon_required.2 mongoc_uri_empty ("u:p@h".data)
      ("u:p".data) ("@h".data) ('u' :: []) (':' :: 'p' :: [])
      (by decide) (by decide)

/-- Claim C8: each `readpreferencetags` occurrence appends exactly one tag
group — precisely the key/value pairs of the comma-separated tokens holding
an unescaped `:`, the other tokens silently dropped — and such an option
never fails the parse. -/
theorem read_prefs_tag_groups :
    (∀ (uri : mongoc_uri_t) (str : List Char),
      mongoc_uri_parse_read_prefs uri str =
        { uri with read_prefs := uri.read_prefs ++ [spec_tag_group str] }) ∧
    (∀ (uri : mongoc_uri_t) (str key end_key : List Char),
      scan_to_unichar '=' str = some (key, end_key) →
      strcaseeq key ("readpreferencetags".data) = true →
      (mongoc_uri_parse_option uri str).1 = true) := by
  constructor
  · intro uri str
    unfold mongoc_uri_parse_read_prefs
    split
    · rename_i b hloop
      have hb := readPrefsLoop_eq _ [] str b hloop
      simp at hb
      rw [hb]
      rfl
    · rename_i hloop
      exact absurd hloop (readPrefsLoop_ne_none _ [] str (by omega))
  · intro uri str key ek hscan hkey
    have hmap : key.map ascii_tolower =
        ("readpreferencetags".data).map ascii_tolower := by
      simpa [strcaseeq] using hkey
    have h1 : (int32_keys.any fun k => strcaseeq key k) = false := by
      simp only [int32_keys, strcaseeq, hmap]
      decide
    have h2 : strcaseeq key ('w' :: []) = false := by
      simp only [strcaseeq, hmap]
      decide
    have h3 : strcaseeq key ("journal".data) = false := by
      simp only [strcaseeq, hmap]
      decide
    have h4 : strcaseeq key ("slaveok".data) = false := by
      simp only [strcaseeq, hmap]
      decide
    have h5 : strcaseeq key ("ssl".data) = false := by
      simp only [strcaseeq, hmap]
      decide
    unfold mongoc_uri_parse_option
    rw [hscan]
    simp [h1, h2, h3, h4, h5, hkey]

/-- Witness for C8 at a concrete tag-group value and option token. -/
theorem read_prefs_tag_groups_witness :
    mongoc_uri_parse_read_prefs mongoc_uri_empty ("dc:ny,bad,rack:1".data) =
      { mongoc_uri_empty with
          read_prefs := [[("dc".data, "ny".data), ("rack".data, "1".data)]] } ∧
    (mongoc_uri_parse_option mongoc_uri_empty
      ("readpreferencetags=dc:sf".data)).1 = true := by
  constructor
  · rw [read_prefs_tag_groups.1 mongoc_uri_empty ("dc:ny,bad,rack:1".data)]
    decide
  · exact read_prefs_tag_groups.2 mongoc_uri_empty
      ("readpreferencetags=dc:sf".data) ("readpreferencetags".data)
      ("=dc:sf".data) (by decide) (by decide)

/-- Claim C9: every scanning loop terminates on finite input — with fuel
exceeding the cursor length, none of the three `goto again` loops ever
exhausts its fuel, because each iteration strictly advances the cursor (and
the character scanner is structurally recursive). -/
theorem parser_loops_terminate :
    ∀ (fuel : Nat) (ret : Bool) (uri : mongoc_uri_t)
      (b : List (List Char × List Char)) (str : List Char),
      str.length < fuel →
      hostsLoop fuel ret uri str ≠ none ∧
      optionsLoop fuel uri str ≠ none ∧
      readPrefsLoop fuel b str ≠ none := by
  intro fuel ret uri b str h
  exact ⟨hostsLoop_ne_none fuel ret uri str h,
         optionsLoop_ne_none fuel uri str h,
         readPrefsLoop_ne_none fuel b str h⟩

/-- Witness for C9 at concrete fuel and input. -/
theorem parser_loops_terminate_witness :
    hostsLoop 1 false mongoc_uri_empty [] ≠ none ∧
    optionsLoop 1 mongoc_uri_empty [] ≠ none ∧
    readPrefsLoop 1 [] [] ≠ none :=
  parser_loops_terminate 1 false mongoc_uri_empty [] [] (by decide)

/-- Claim C10: an empty host token is accepted: `mongodb:///` and
`mongodb://,h` parse successfully, appending a host entry whose hostname is
the empty string with default port 27017 and family `AF_INET`. -/
theorem empty_host_token_accepted :
    (mongoc_uri_new ("mongodb:///".data)).map (fun u => u.hosts) =
      some [{ host := [], port := 27017, family := family_t.AF_INET,
              host_and_port := ":27017".data }] ∧
    (mongoc_uri_new ("mongodb://,h".data)).map
      (fun u => u.hosts.map (fun h => (h.host, h.port, h.family))) =
      some [(([] : List Char), 27017, family_t.AF_INET),
            ("h".data, 27017, family_t.AF_INET)] := by
  constructor
  · decide
  · decide
